import Mathlib

/-
  Verification development for the real-estate transaction analysis pipeline
  (src/app.py).  The pure per-record core of `process_data`, the helper
  functions `parse_roc_year` and `calc_age`, and the binning routine
  `analyze_best_range` are shallowly embedded below.

  Modelling conventions:
  * pandas float cells are modelled by `PFloat`: an exact rational together
    with the three non-finite values +inf, -inf and NaN that the pipeline
    manipulates (`replace([np.inf, -np.inf], 0).fillna(0)`).  Rounding of
    binary floats is not modelled; all claims under study are about exact
    band/zero/sign/binning behaviour, not rounding.  Signed zero is collapsed
    to `fin 0`; the only behavioural difference (sign of an infinity produced
    by dividing by a negative zero) is erased by the subsequent
    replace/fillna step.
  * Python `int(str)` is modelled by `pyParseInt` (whitespace stripping,
    optional sign, decimal digits; underscore separators are not modelled).
    `float(str)` / `pd.to_numeric(errors='coerce').fillna(0)` is modelled by
    `coerce_numeric` (sign, decimal digits with optional fractional part,
    "inf"/"infinity" in any case; exponent notation is not modelled).
  * A missing cell (pandas NaN in an object column) is `none : Option String`.
  * `pd.cut(col, bins=range(min_v, max_v + step, step), include_lowest=True)`
    assigns a value x to the first interval (e_i, e_(i+1)] that contains it,
    with the first interval additionally containing its left edge e_0;
    values outside [e_0, e_last] are left unassigned.  This is `cutIndex`.
  * `counts.index[0]` after `value_counts().sort_values(ascending=False)`
    always carries the maximal bin count, but WHICH tied bin ends up first
    depends on numpy's unstable quicksort inside pandas, which the source
    does not determine; `analyze_best_range` therefore returns the count of
    a maximal bin (`Option ℕ`, `none` for the (None, 0) branch) and leaves
    the identity of the returned tied interval unmodelled.
-/

-- Rational arithmetic must evaluate inside `decide`; the Batteries
-- definitions are sealed by default.
attribute [local semireducible] Rat.mul Rat.inv Rat.add Rat.sub

/-- Model of a pandas float cell: exact rational, infinities, or NaN. -/
inductive PFloat where
  | fin (q : ℚ)
  | inf
  | ninf
  | nan
deriving DecidableEq

/-- IEEE-style multiplication on the modelled floats. -/
def pfMul : PFloat → PFloat → PFloat
  | .nan, _ => .nan
  | _, .nan => .nan
  | .fin a, .fin b => .fin (a * b)
  | .fin a, .inf => if 0 < a then .inf else if a < 0 then .ninf else .nan
  | .fin a, .ninf => if 0 < a then .ninf else if a < 0 then .inf else .nan
  | .inf, .fin b => if 0 < b then .inf else if b < 0 then .ninf else .nan
  | .ninf, .fin b => if 0 < b then .ninf else if b < 0 then .inf else .nan
  | .inf, .inf => .inf
  | .inf, .ninf => .ninf
  | .ninf, .inf => .ninf
  | .ninf, .ninf => .inf

/-- IEEE-style division on the modelled floats (zero denominator produces a
signed infinity or NaN, exactly what `total / area` does in pandas before the
replace/fillna step). -/
def pfDiv : PFloat → PFloat → PFloat
  | .nan, _ => .nan
  | _, .nan => .nan
  | .fin a, .fin b =>
      if b = 0 then (if 0 < a then .inf else if a < 0 then .ninf else .nan)
      else .fin (a / b)
  | .fin _, .inf => .fin 0
  | .fin _, .ninf => .fin 0
  | .inf, .fin b => if 0 ≤ b then .inf else .ninf
  | .ninf, .fin b => if 0 ≤ b then .ninf else .inf
  | .inf, .inf => .nan
  | .inf, .ninf => .nan
  | .ninf, .inf => .nan
  | .ninf, .ninf => .nan

/-- The cleanup `replace([np.inf, -np.inf], 0).fillna(0)` on a float cell. -/
def pfFixP : PFloat → PFloat
  | .fin q => .fin q
  | .inf => .fin 0
  | .ninf => .fin 0
  | .nan => .fin 0

/-- Float comparison `v > q` as pandas evaluates it (NaN compares false). -/
def pfGt (v : PFloat) (q : ℚ) : Bool :=
  match v with
  | .fin a => decide (q < a)
  | .inf => true
  | .ninf => false
  | .nan => false

/-- Float comparison `v < q` as pandas evaluates it (NaN compares false). -/
def pfLt (v : PFloat) (q : ℚ) : Bool :=
  match v with
  | .fin a => decide (a < q)
  | .inf => false
  | .ninf => true
  | .nan => false

/-- Non-negativity of a modelled float (NaN and -inf are not non-negative). -/
def pf_nonneg : PFloat → Bool
  | .fin q => decide (0 ≤ q)
  | .inf => true
  | .ninf => false
  | .nan => false

/-- Numeric value of a digit string (helper for the parsers). -/
def digitsVal (l : List Char) : ℕ :=
  l.foldl (fun a c => 10 * a + (c.toNat - 48)) 0

/-- Whitespace stripping from both ends (Python `str.strip()`, as performed
by `int()`/`float()` on their argument). -/
def trimChars (l : List Char) : List Char :=
  ((l.dropWhile Char.isWhitespace).reverse.dropWhile Char.isWhitespace).reverse

/-- Python slicing `s[:-n]`: all characters except the last n (empty when the
string has at most n characters). -/
def charsDropRight (l : List Char) (n : ℕ) : List Char :=
  l.take (l.length - n)

/-- Model of Python `int(s)`: optional surrounding whitespace, optional sign,
one or more decimal digits (underscore separators are not modelled). -/
def pyParseInt (s : List Char) : Option ℤ :=
  match trimChars s with
  | [] => none
  | '-' :: r => if r ≠ [] ∧ r.all (·.isDigit) then some (-(digitsVal r : ℤ)) else none
  | '+' :: r => if r ≠ [] ∧ r.all (·.isDigit) then some ((digitsVal r : ℤ)) else none
  | l => if l.all (·.isDigit) then some ((digitsVal l : ℤ)) else none

/-- Unsigned decimal literal with optional fractional part ("123", "123.45",
".5", "123."), as accepted by Python float conversion. -/
def parseUnsignedQ (l : List Char) : Option ℚ :=
  let intPart := l.takeWhile (·.isDigit)
  let rest := l.dropWhile (·.isDigit)
  match rest with
  | [] => if intPart.isEmpty then none else some ((digitsVal intPart : ℚ))
  | '.' :: frac =>
      if frac.all (·.isDigit) ∧ ¬(intPart.isEmpty ∧ frac.isEmpty) then
        some ((digitsVal intPart : ℚ) + (digitsVal frac : ℚ) / (10 ^ frac.length))
      else none
  | _ => none

/-- Unsigned float magnitude: a decimal literal or an infinity name. -/
def parseMag (l : List Char) : Option PFloat :=
  if l.map Char.toLower = "inf".data ∨ l.map Char.toLower = "infinity".data then
    some .inf
  else
    (parseUnsignedQ l).map .fin

/-- Negation on the modelled floats. -/
def pfNeg : PFloat → PFloat
  | .fin q => .fin (-q)
  | .inf => .ninf
  | .ninf => .inf
  | .nan => .nan

/-- Signed float literal (helper for `coerce_numeric`). -/
def signedParse (l : List Char) : Option PFloat :=
  match l with
  | '-' :: r => (parseMag r).map pfNeg
  | '+' :: r => parseMag r
  | l => parseMag l

/-- Model of `pd.to_numeric(x, errors='coerce').fillna(0)` on one cell:
a successful float parse keeps its value (including infinities), everything
else — missing cell, unparseable text, or a parse to NaN — becomes 0. -/
def coerce_numeric (x : Option String) : PFloat :=
  match x with
  | none => .fin 0
  | some s => (signedParse (trimChars s.data)).getD (.fin 0)

/-- Substring test on character lists (helper for `strContains`). -/
def charsInfixOf (pat : List Char) : List Char → Bool
  | [] => pat.isEmpty
  | c :: t => pat.isPrefixOf (c :: t) || charsInfixOf pat t

/-- Model of `Series.str.contains(pat)` for the literal (regex-free) patterns
used by the source: substring containment. -/
def strContains (s pat : String) : Bool :=
  charsInfixOf pat.data s.data

/-- One raw transaction row as the pipeline sees it after CSV reading: the
claim-relevant columns, all textual and possibly missing (pandas NaN =
`none`).  Pass-through columns are not modelled. -/
structure RawRecord where
  district : String
  subjectLabel : String
  txnDate : Option String
  completionDate : Option String
  totalPrice : Option String
  unitPriceField : Option String
  buildingArea : Option String
  landArea : Option String
deriving DecidableEq

/-- One cleaned row (`df` after step 6 of `process_data`): original text
columns plus the coerced numeric columns and the derived fields. -/
structure CleanRecord where
  district : String
  subjectLabel : String
  txnDate : Option String
  completionDate : Option String
  totalMinor : PFloat
  unitFieldVal : PFloat
  buildingSqm : PFloat
  landSqm : PFloat
  totalPriceMajor : PFloat
  areaUnits : PFloat
  unitPrice : PFloat
  txnYear : ℤ
  buildingAge : ℤ
deriving DecidableEq

/-- District predicate (step 1): an empty caller list keeps everything,
otherwise keep rows whose district is a member of the list. -/
def district_keep (dl : List String) (d : String) : Bool :=
  dl.isEmpty || dl.contains d

/-- Subject predicate (step 2): mode "房地" keeps labels containing 房地 or
建物, mode "土地" keeps labels containing 土地 but not 房地, any other mode
keeps everything. -/
def subject_keep (tf : String) (label : String) : Bool :=
  if tf = "房地" then strContains label "房地" || strContains label "建物"
  else if tf = "土地" then strContains label "土地" && !(strContains label "房地")
  else true

/-- The sqm→ping conversion constant 0.3025 of the source. -/
def pingpf : PFloat := .fin (3025 / 10000)

/-- Step 4 area: 面積_坪 = building × 0.3025, recomputed from the land area
when (and only when) that product compares equal to 0. -/
def derived_area (building land : PFloat) : PFloat :=
  if pfMul building pingpf = .fin 0 then pfMul land pingpf else pfMul building pingpf

/-- 總價_萬元 of a row: coerced total price divided by 10000. -/
def record_total_major (r : RawRecord) : PFloat :=
  pfDiv (coerce_numeric r.totalPrice) (.fin 10000)

/-- 面積_坪 of a row. -/
def record_area (r : RawRecord) : PFloat :=
  derived_area (coerce_numeric r.buildingArea) (coerce_numeric r.landArea)

/-- 單價_萬元_坪 of a row before the replace/fillna cleanup. -/
def record_unit_price_raw (r : RawRecord) : PFloat :=
  pfDiv (record_total_major r) (record_area r)

/-- 單價_萬元_坪 of a row after `replace([inf,-inf],0).fillna(0)` (line 77). -/
def record_unit_fixed (r : RawRecord) : PFloat :=
  pfFixP (record_unit_price_raw r)

/-- `parse_roc_year` from the source: `None` input, length < 6, or a prefix
that `int()` rejects give `None`; otherwise the integer prefix plus 1911. -/
def parse_roc_year (x : Option String) : Option ℤ :=
  match x with
  | none => none
  | some s =>
      if 6 ≤ s.length then (pyParseInt (charsDropRight s.data 4)).map (· + 1911) else none

/-- `calc_age` from the source: missing or shorter-than-3 completion dates
give 0; otherwise `int(s[:-4]) + 1911` is the completion year (any parse
failure gives 0) and the age is floored at 0. -/
def calc_age (bd : Option String) (txnYear : ℤ) : ℤ :=
  match bd with
  | none => 0
  | some s =>
      if s.length < 3 then 0
      else
        match pyParseInt (charsDropRight s.data 4) with
        | none => 0
        | some y => max (txnYear - (y + 1911)) 0

/-- The per-row core of `process_data` (steps 1-6): district filter, subject
filter, numeric coercion, derived fields, transaction-year requirement
(`dropna`), age computation, and the outlier band on the unit price.
Returns `none` exactly when the row is dropped. -/
def process_record (dl : List String) (tf : String) (r : RawRecord) : Option CleanRecord :=
  if district_keep dl r.district = false then none
  else if subject_keep tf r.subjectLabel = false then none
  else
    match parse_roc_year r.txnDate with
    | none => none
    | some y =>
        if pfGt (record_unit_fixed r) (1 / 10) && pfLt (record_unit_fixed r) 300 then
          some { district := r.district
                 subjectLabel := r.subjectLabel
                 txnDate := r.txnDate
                 completionDate := r.completionDate
                 totalMinor := coerce_numeric r.totalPrice
                 unitFieldVal := coerce_numeric r.unitPriceField
                 buildingSqm := coerce_numeric r.buildingArea
                 landSqm := coerce_numeric r.landArea
                 totalPriceMajor := record_total_major r
                 areaUnits := record_area r
                 unitPrice := record_unit_fixed r
                 txnYear := y
                 buildingAge := calc_age r.completionDate y }
        else none

/-- `process_data` on the row list of one CSV member: drop the first data row
(the secondary-language label row, `df.iloc[1:]`), then the per-row pipeline. -/
def process_data (dl : List String) (tf : String) (rows : List RawRecord) : List CleanRecord :=
  (rows.drop 1).filterMap (process_record dl tf)

/-- Minimum of a column (`df[col].min()`); 0 for an empty column, which the
source never queries (it returns early on an empty frame). -/
def listMin : List ℚ → ℚ
  | [] => 0
  | x :: t => t.foldl min x

/-- Python `int()` on a numeric value: truncation toward zero. -/
def pyInt (q : ℚ) : ℤ :=
  if 0 ≤ q then ⌊q⌋ else ⌈q⌉

/-- `df[col].quantile(0.95)` with pandas' default linear interpolation:
sort ascending, take position h = 0.95·(n-1) and interpolate between the
neighbouring order statistics. -/
def quantile95 (xs : List ℚ) : ℚ :=
  let ys := List.insertionSort (· ≤ ·) xs
  let h : ℚ := (19 / 20) * ((ys.length : ℚ) - 1)
  let i : ℕ := (⌊h⌋).toNat
  match ys[i]?, ys[i + 1]? with
  | some a, some b => a + (h - (⌊h⌋ : ℚ)) * (b - a)
  | some a, none => a
  | _, _ => 0

/-- Python `range(start, stop, step)` for a positive step, materialised. -/
def pyRange (start stop step : ℤ) : List ℤ :=
  (List.range ((stop - start + step - 1) / step).toNat).map
    (fun k : ℕ => start + step * (k : ℤ))

/-- `min_v = int(df[col].min())` from `analyze_best_range`. -/
def min_v (xs : List ℚ) : ℤ :=
  pyInt (listMin xs)

/-- `max_v = int(df[col].quantile(0.95))`, forced up to `min_v + step` when it
does not exceed `min_v`. -/
def max_v (xs : List ℚ) (step : ℤ) : ℤ :=
  if pyInt (quantile95 xs) ≤ min_v xs then min_v xs + step else pyInt (quantile95 xs)

/-- The bin edge list `range(min_v, max_v + step, step)`. -/
def bins_edges (xs : List ℚ) (step : ℤ) : List ℤ :=
  pyRange (min_v xs) (max_v xs step + step) step

/-- Scan of the strictly increasing right edges: the first edge that is ≥ x
identifies the bin (helper for `cutIndex`). -/
def cutGo (x : ℚ) : List ℤ → ℕ → Option ℕ
  | [], _ => none
  | hi :: rest, i => if x ≤ (hi : ℚ) then some i else cutGo x rest (i + 1)

/-- Bin assignment of `pd.cut(col, bins=edges, include_lowest=True)` (right-
closed intervals, the first one also left-closed): the index of the bin
containing x, or `none` when x lies outside `[e_0, e_last]`. -/
def cutIndex (edges : List ℤ) (x : ℚ) : Option ℕ :=
  match edges with
  | [] => none
  | e0 :: rest => if x < (e0 : ℚ) then none else cutGo x rest 0

/-- Membership of x in bin i of the edge list: (e_i, e_(i+1)], with the first
bin additionally containing its left edge. -/
def binMem (edges : List ℤ) (i : ℕ) (x : ℚ) : Prop :=
  ∃ lo hi, edges[i]? = some lo ∧ edges[i + 1]? = some hi ∧
    ((lo : ℚ) < x ∨ (i = 0 ∧ (lo : ℚ) ≤ x)) ∧ x ≤ (hi : ℚ)

/-- Number of column values assigned to bin i. -/
def binCount (edges : List ℤ) (xs : List ℚ) (i : ℕ) : ℕ :=
  xs.countP (fun a => cutIndex edges a == some i)

/-- `analyze_best_range` reduced to its source-determined part: `none` models
the `(None, 0)` branch (empty frame, or no bins at all); `some c` models
returning one of the maximal-count intervals together with its count c.
Which of several tied maximal bins is returned depends on numpy's unstable
quicksort inside `value_counts`/`sort_values` and is therefore not modelled;
the count of the returned bin is the maximum bin count in every case.  Note
that `value_counts` on a categorical column reports zero-count bins, so the
count branch is reached (with c possibly 0) whenever at least one bin exists. -/
def analyze_best_range (xs : List ℚ) (step : ℤ) : Option ℕ :=
  if xs = [] then none
  else
    if (bins_edges xs step).length < 2 then none
    else
      some ((((List.range ((bins_edges xs step).length - 1)).map
        (binCount (bins_edges xs step) xs)).foldl max 0))

/-- Sample row of the spec scenario: transaction date 1130615, completion
date 1000101, total price 30000000, building area 100. -/
def c6record : RawRecord :=
  { district := "斗六市", subjectLabel := "房地(土地+建物)", txnDate := some "1130615",
    completionDate := some "1000101", totalPrice := some "30000000",
    unitPriceField := none, buildingArea := some "100", landArea := some "0" }

/-- The cleaned row produced from `c6record`. -/
def c6clean : CleanRecord :=
  { district := "斗六市", subjectLabel := "房地(土地+建物)", txnDate := some "1130615",
    completionDate := some "1000101", totalMinor := .fin 30000000,
    unitFieldVal := .fin 0, buildingSqm := .fin 100, landSqm := .fin 0,
    totalPriceMajor := .fin 3000, areaUnits := .fin (121 / 4),
    unitPrice := .fin (12000 / 121), txnYear := 2024, buildingAge := 13 }

/-- A row whose numeric cells are all missing: its derived unit price is the
0-coerced value of a failed derivation. -/
def rec0 : RawRecord :=
  { district := "", subjectLabel := "", txnDate := some "1130615",
    completionDate := none, totalPrice := none, unitPriceField := none,
    buildingArea := none, landArea := none }

/-- A row with a missing transaction date. -/
def recNoDate : RawRecord :=
  { district := "", subjectLabel := "", txnDate := none,
    completionDate := none, totalPrice := none, unitPriceField := none,
    buildingArea := none, landArea := none }

lemma parseMag_ne_nan (l : List Char) (v : PFloat) (h : parseMag l = some v) :
    v ≠ .nan := by
  unfold parseMag at h
  split at h
  · cases h; simp
  · rcases (Option.map_eq_some.mp h) with ⟨q, _, rfl⟩
    simp

lemma signedParse_ne_nan (l : List Char) (v : PFloat) (h : signedParse l = some v) :
    v ≠ .nan := by
  unfold signedParse at h
  split at h
  · rcases (Option.map_eq_some.mp h) with ⟨w, hw, rfl⟩
    have := parseMag_ne_nan _ _ hw
    cases w <;> simp [pfNeg] at this ⊢
  · exact parseMag_ne_nan _ _ h
  · exact parseMag_ne_nan _ _ h

/-- The numeric coercer never leaves a NaN in a column (`fillna(0)`). -/
lemma coerce_numeric_ne_nan (x : Option String) : coerce_numeric x ≠ .nan := by
  unfold coerce_numeric
  match x with
  | none => simp
  | some s =>
    cases h : signedParse (trimChars s.data) with
    | none => simp [h]
    | some v => simpa [h] using signedParse_ne_nan _ _ h

/-- C2: for a date string of length ≥ 6 whose prefix (all but the last 4
characters) parses as an integer, the Calendar Normalizer returns that
integer plus 1911; missing input, length < 6, or a non-parsing prefix give
no value; and a transaction date with no value makes the row be dropped
(the embedding is total, so no error can be raised). -/
theorem c2_calendar_normalizer (s : String) (dl : List String) (tf : String)
    (r : RawRecord) :
    (∀ k : ℤ, 6 ≤ s.length → pyParseInt (charsDropRight s.data 4) = some k →
      parse_roc_year (some s) = some (k + 1911))
    ∧ parse_roc_year none = none
    ∧ (s.length < 6 → parse_roc_year (some s) = none)
    ∧ (pyParseInt (charsDropRight s.data 4) = none → parse_roc_year (some s) = none)
    ∧ (parse_roc_year r.txnDate = none → process_record dl tf r = none) := by
  refine ⟨?_, rfl, ?_, ?_, ?_⟩
  · intro k h1 h2
    simp only [parse_roc_year, if_pos h1, h2, Option.map_some]
    rfl
  · intro h
    simp only [parse_roc_year]
    rw [if_neg (by omega)]
  · intro h
    simp only [parse_roc_year]
    split_ifs
    · rw [h]; rfl
    · rfl
  · intro h
    unfold process_record
    rw [h]
    split_ifs <;> rfl

/-- C2 witness: the scenario date 1130615 is normalized to 113 + 1911 = 2024,
and a row with a missing transaction date is dropped. -/
theorem c2_calendar_normalizer_holds :
    parse_roc_year (some "1130615") = some (113 + 1911)
    ∧ process_record [] "全部" recNoDate = none := by
  refine ⟨?_, ?_⟩
  · exact (c2_calendar_normalizer "1130615" [] "全部" recNoDate).1 113 (by decide) (by decide)
  · exact (c2_calendar_normalizer "1130615" [] "全部" recNoDate).2.2.2.2 (by decide)

/-- C7 (amended): building_age is 0 when the completion date is missing,
shorter than 3 characters, or its all-but-last-4-characters prefix fails
integer parsing; when the prefix parses (which already happens for strings of
length ≥ 3, e.g. 5-character dates — the length-6 rule of the transaction
parser is NOT applied here) the age is the transaction year minus
(prefix + 1911) floored at 0; and a completion-date change never changes
whether the row is kept. -/
theorem c7_completion_age (s : String) (ty : ℤ) (dl : List String) (tf : String)
    (r : RawRecord) (bd : Option String) :
    calc_age none ty = 0
    ∧ (s.length < 3 → calc_age (some s) ty = 0)
    ∧ (pyParseInt (charsDropRight s.data 4) = none → calc_age (some s) ty = 0)
    ∧ (∀ y : ℤ, 3 ≤ s.length → pyParseInt (charsDropRight s.data 4) = some y →
        calc_age (some s) ty = max (ty - (y + 1911)) 0)
    ∧ (process_record dl tf { r with completionDate := bd }).isSome
        = (process_record dl tf r).isSome := by
  refine ⟨rfl, ?_, ?_, ?_, ?_⟩
  · intro h
    simp only [calc_age]
    rw [if_pos h]
  · intro h
    simp only [calc_age]
    split_ifs
    · rfl
    · rw [h]
  · intro y h1 h2
    simp only [calc_age]
    rw [if_neg (by omega), h2]
  · obtain ⟨d, sl, td, cd, tp, up, ba, la⟩ := r
    simp only [process_record, record_unit_fixed, record_unit_price_raw,
      record_total_major, record_area]
    cases hy : parse_roc_year td
    · rfl
    · split_ifs <;> rfl

/-- C7 witness: a well-formed completion date 1000101 with transaction year
2024 gives age 2024 - (100 + 1911) = 13. -/
theorem c7_completion_age_holds :
    calc_age (some "1000101") 2024 = max (2024 - (100 + 1911)) 0 :=
  (c7_completion_age "1000101" 2024 [] "全部" rec0 none).2.2.2.1 100 (by decide) (by decide)

/-- C7 counterexample: the 5-character completion date 99101 is rejected by the
transaction-date parser (shorter than 6), yet `calc_age` does not treat it as
malformed: it parses the 1-character prefix and returns age 104, not 0. -/
theorem c7_five_char_completion :
    parse_roc_year (some "99101") = none ∧ calc_age (some "99101") 2024 = 104 := by
  refine ⟨by decide, by decide⟩

/-- C8 (amended): a label is kept by both the land-only mode and the
building+land mode exactly when it contains the land token and the building
token but not the building-and-land token; mutual exclusion therefore holds
only for labels without that combination. -/
theorem c8_subject_modes (label : String) :
    (subject_keep "土地" label && subject_keep "房地" label)
      = (strContains label "土地" && !strContains label "房地"
          && strContains label "建物") := by
  have h1 : subject_keep "土地" label
      = (strContains label "土地" && !strContains label "房地") := by
    unfold subject_keep
    rw [if_neg (by decide), if_pos rfl]
  have h2 : subject_keep "房地" label
      = (strContains label "房地" || strContains label "建物") := by
    unfold subject_keep
    rw [if_pos rfl]
  rw [h1, h2]
  cases strContains label "土地" <;> cases strContains label "房地" <;>
    cases strContains label "建物" <;> rfl

/-- C8 counterexample: the label 土地建物 contains the land token and the
building token but not the building-and-land token, so it is kept by BOTH
filter modes — the two modes are not mutually exclusive. -/
theorem c8_double_counted_label :
    subject_keep "土地" "土地建物" = true ∧ subject_keep "房地" "土地建物" = true := by
  refine ⟨by decide, by decide⟩

/-- C6 (amended): the scenario row (transaction date 1130615, completion date
1000101, total price 30000000, building area 100) yields transaction year
2024, total_price_major 3000, area_units 30.25, unit_price 12000/121 ≈ 99.17
(within 0.01 of 99.17), is retained by the band filter — but its building age
is 2024 - (100 + 1911) = 13, not 24. -/
theorem c6_scenario :
    (process_record [] "全部" c6record).map (fun c => c.txnYear) = some 2024
    ∧ (process_record [] "全部" c6record).map (fun c => c.buildingAge) = some 13
    ∧ (process_record [] "全部" c6record).map (fun c => c.totalPriceMajor)
        = some (PFloat.fin 3000)
    ∧ (process_record [] "全部" c6record).map (fun c => c.areaUnits)
        = some (PFloat.fin (121 / 4))
    ∧ (process_record [] "全部" c6record).map (fun c => c.unitPrice)
        = some (PFloat.fin (12000 / 121))
    ∧ ((9917 : ℚ) / 100 - 1 / 100 < 12000 / 121 ∧ (12000 : ℚ) / 121 < 9917 / 100 + 1 / 100)
    ∧ ((1 : ℚ) / 10 < 12000 / 121 ∧ (12000 : ℚ) / 121 < 300) := by
  exact ⟨by decide, by decide, by decide, by decide, by decide, ⟨by decide, by decide⟩,
    ⟨by decide, by decide⟩⟩

/-- C6 counterexample: on the scenario row the pipeline computes building age
13 (completion year 100 + 1911 = 2011 against transaction year 2024), so the
claimed building_age = 24 is wrong. -/
theorem c6_age_is_13_not_24 :
    (process_record [] "全部" c6record).map (fun c => c.buildingAge) = some 13
    ∧ (process_record [] "全部" c6record).map (fun c => c.buildingAge) ≠ some 24 := by
  refine ⟨by decide, by decide⟩

/-- C1: every row in the clean record set satisfies the strict band
0.1 < unit_price < 300 (as the float comparisons of line 106 evaluate it),
and any row whose derived unit price fails either strict comparison —
including the 0-coerced failed derivations — is dropped by `process_record`,
not retained. -/
theorem c1_outlier_band (dl : List String) (tf : String) (rows : List RawRecord)
    (r : RawRecord) :
    (∀ c ∈ process_data dl tf rows,
      pfGt c.unitPrice (1 / 10) = true ∧ pfLt c.unitPrice 300 = true)
    ∧ (¬(pfGt (record_unit_fixed r) (1 / 10) = true
          ∧ pfLt (record_unit_fixed r) 300 = true) →
        process_record dl tf r = none) := by
  constructor
  · intro c hc
    rw [process_data, List.mem_filterMap] at hc
    obtain ⟨r', _, hproc⟩ := hc
    simp only [process_record] at hproc
    split at hproc
    · exact Option.noConfusion hproc
    · split at hproc
      · exact Option.noConfusion hproc
      · split at hproc
        · exact Option.noConfusion hproc
        · split at hproc
          · rename_i hband
            obtain rfl := Option.some.inj hproc
            simp only [Bool.and_eq_true] at hband
            exact hband
          · exact Option.noConfusion hproc
  · intro h
    simp only [process_record]
    split
    · rfl
    · split
      · rfl
      · split
        · rfl
        · rw [if_neg]
          intro hcontra
          simp only [Bool.and_eq_true] at hcontra
          exact h hcontra

/-- C1 witness: the scenario row's clean record lies strictly inside the band,
and a row whose derivation 0-coerces the unit price is dropped. -/
theorem c1_outlier_band_holds :
    (pfGt c6clean.unitPrice (1 / 10) = true ∧ pfLt c6clean.unitPrice 300 = true)
    ∧ process_record [] "全部" rec0 = none := by
  constructor
  · exact (c1_outlier_band [] "全部" [c6record, c6record] c6record).1 c6clean (by decide)
  · exact (c1_outlier_band [] "全部" [] rec0).2 (by decide)

lemma pfMul_pingpf_eq_zero (v : PFloat) (hv : v ≠ .nan) :
    pfMul v pingpf = .fin 0 ↔ v = .fin 0 := by
  rcases v with q | _ | _ | _
  · constructor
    · intro h
      simp only [pingpf, pfMul, PFloat.fin.injEq] at h ⊢
      rcases mul_eq_zero.mp h with h' | h'
      · exact h'
      · norm_num at h'
    · intro h
      injection h with h
      subst h
      norm_num [pfMul, pingpf]
  · norm_num [pfMul, pingpf]
  · norm_num [pfMul, pingpf]
  · exact absurd rfl hv

/-- C4: the derived area equals building × 0.3025 whenever that product is
nonzero; the product is zero exactly when the coerced building area is zero;
and in exactly that case the land fallback land × 0.3025 is used. -/
theorem c4_area_fallback (r : RawRecord) :
    (pfMul (coerce_numeric r.buildingArea) pingpf ≠ PFloat.fin 0 →
      record_area r = pfMul (coerce_numeric r.buildingArea) pingpf)
    ∧ (pfMul (coerce_numeric r.buildingArea) pingpf = PFloat.fin 0 ↔
        coerce_numeric r.buildingArea = PFloat.fin 0)
    ∧ (coerce_numeric r.buildingArea = PFloat.fin 0 →
        record_area r = pfMul (coerce_numeric r.landArea) pingpf) := by
  refine ⟨?_, ?_, ?_⟩
  · intro h
    rw [record_area, derived_area, if_neg h]
  · exact pfMul_pingpf_eq_zero _ (coerce_numeric_ne_nan _)
  · intro h
    rw [record_area, derived_area, if_pos]
    rw [h]
    norm_num [pfMul, pingpf]

/-- C4 witness: on the scenario row the building product 100 × 0.3025 = 30.25
is nonzero, so the derived area is the building product, with no fallback. -/
theorem c4_area_fallback_holds :
    record_area c6record = pfMul (coerce_numeric c6record.buildingArea) pingpf :=
  (c4_area_fallback c6record).1 (by decide)

lemma pf_nonneg_mul_pingpf (v : PFloat) (h : pf_nonneg v = true) :
    pf_nonneg (pfMul v pingpf) = true := by
  rcases v with q | _ | _ | _
  · simp only [pf_nonneg, decide_eq_true_eq] at h
    simp only [pingpf, pfMul, pf_nonneg, decide_eq_true_eq]
    exact mul_nonneg h (by norm_num)
  · norm_num [pfMul, pingpf, pf_nonneg]
  · simp [pf_nonneg] at h
  · simp [pf_nonneg] at h

lemma pf_nonneg_div_const (v : PFloat) (c : ℚ) (hc : 0 < c) (h : pf_nonneg v = true) :
    pf_nonneg (pfDiv v (.fin c)) = true := by
  rcases v with q | _ | _ | _
  · simp only [pf_nonneg, decide_eq_true_eq] at h
    simp only [pfDiv]
    rw [if_neg (ne_of_gt hc)]
    simp only [pf_nonneg, decide_eq_true_eq]
    exact div_nonneg h (le_of_lt hc)
  · simp only [pfDiv]
    rw [if_pos (le_of_lt hc)]
    rfl
  · simp [pf_nonneg] at h
  · simp [pf_nonneg] at h

lemma pf_nonneg_fix_div (x y : PFloat) (hx : pf_nonneg x = true)
    (hy : pf_nonneg y = true) : pf_nonneg (pfFixP (pfDiv x y)) = true := by
  rcases x with a | _ | _ | _ <;> rcases y with b | _ | _ | _
  · simp only [pf_nonneg, decide_eq_true_eq] at hx hy
    simp only [pfDiv]
    split_ifs with h1 h2 h3
    · rfl
    · rfl
    · rfl
    · simp only [pfFixP, pf_nonneg, decide_eq_true_eq]
      exact div_nonneg hx (le_of_lt (lt_of_le_of_ne hy (Ne.symm h1)))
  · rfl
  · simp [pf_nonneg] at hy
  · simp [pf_nonneg] at hy
  · simp only [pf_nonneg, decide_eq_true_eq] at hy
    simp only [pfDiv]
    rw [if_pos hy]
    rfl
  · rfl
  · simp [pf_nonneg] at hy
  · simp [pf_nonneg] at hy
  · simp [pf_nonneg] at hx
  · simp [pf_nonneg] at hx
  · simp [pf_nonneg] at hx
  · simp [pf_nonneg] at hx
  · simp [pf_nonneg] at hx
  · simp [pf_nonneg] at hx
  · simp [pf_nonneg] at hx
  · simp [pf_nonneg] at hx

/-- A row with a negative total-price text and positive building area. -/
def c3record : RawRecord :=
  { district := "斗六市", subjectLabel := "房地(土地+建物)", txnDate := some "1130615",
    completionDate := none, totalPrice := some "-30000000",
    unitPriceField := none, buildingArea := some "100", landArea := some "0" }

/-- C3 (amended): the cleaned unit price column is always finite (the
replace/fillna step leaves no infinity and no NaN), and a zero or non-finite
denominator yields unit price 0; non-negativity however only holds when the
coerced total price, building area and land area are themselves non-negative
— a negative total-price text produces a negative finite unit price. -/
theorem c3_unit_price (r : RawRecord) :
    (∃ q : ℚ, record_unit_fixed r = PFloat.fin q)
    ∧ (record_area r = PFloat.fin 0 ∨ record_area r = PFloat.inf
        ∨ record_area r = PFloat.ninf → record_unit_fixed r = PFloat.fin 0)
    ∧ (pf_nonneg (coerce_numeric r.totalPrice) = true →
        pf_nonneg (coerce_numeric r.buildingArea) = true →
        pf_nonneg (coerce_numeric r.landArea) = true →
        pf_nonneg (record_unit_fixed r) = true) := by
  refine ⟨?_, ?_, ?_⟩
  · rcases h : record_unit_price_raw r with q | _ | _ | _
    · exact ⟨q, by rw [record_unit_fixed, h]; rfl⟩
    · exact ⟨0, by rw [record_unit_fixed, h]; rfl⟩
    · exact ⟨0, by rw [record_unit_fixed, h]; rfl⟩
    · exact ⟨0, by rw [record_unit_fixed, h]; rfl⟩
  · intro h
    rw [record_unit_fixed, record_unit_price_raw]
    rcases h with h | h | h <;> rw [h] <;> rcases htm : record_total_major r with a | _ | _ | _ <;>
      simp only [pfDiv] <;>
      first
        | rfl
        | (split_ifs <;> rfl)
  · intro h1 h2 h3
    have harea : pf_nonneg (record_area r) = true := by
      rw [record_area, derived_area]
      split_ifs
      · exact pf_nonneg_mul_pingpf _ h3
      · exact pf_nonneg_mul_pingpf _ h2
    have htm : pf_nonneg (record_total_major r) = true := by
      rw [record_total_major]
      exact pf_nonneg_div_const _ 10000 (by norm_num) h1
    rw [record_unit_fixed, record_unit_price_raw]
    exact pf_nonneg_fix_div _ _ htm harea

/-- C3 witness: on the scenario row all coerced inputs are non-negative and
the cleaned unit price is non-negative; a row whose derivation fails has its
unit price 0-coerced by the zero-denominator rule. -/
theorem c3_unit_price_holds :
    pf_nonneg (record_unit_fixed c6record) = true
    ∧ record_unit_fixed rec0 = PFloat.fin 0 := by
  constructor
  · exact (c3_unit_price c6record).2.2 (by decide) (by decide) (by decide)
  · exact (c3_unit_price rec0).2.1 (Or.inl (by decide))

/-- C3 counterexample: the negative total-price text -30000000 with building
area 100 gives the finite but NEGATIVE unit price -12000/121 ≈ -99.17 out of
the Derived-Field Calculator, so unit_price is not non-negative for every
input record. -/
theorem c3_negative_unit_price :
    record_unit_fixed c3record = PFloat.fin (-(12000 / 121))
    ∧ (-(12000 / 121) : ℚ) < 0 := by
  refine ⟨by decide, by decide⟩

/-- Number of bin edges produced by `range(min_v, max_v + step, step)`. -/
def edge_count (xs : List ℚ) (step : ℤ) : ℕ :=
  ((max_v xs step + step - min_v xs + step - 1) / step).toNat

/-- The last bin edge. -/
def last_edge (xs : List ℚ) (step : ℤ) : ℤ :=
  min_v xs + step * ((edge_count xs step : ℤ) - 1)

lemma pyRange_getElem (a b s : ℤ) (k : ℕ) :
    (pyRange a b s)[k]? = if k < ((b - a + s - 1) / s).toNat
      then some (a + s * (k : ℤ)) else none := by
  simp only [pyRange, List.getElem?_map]
  rcases Nat.lt_or_ge k (((b - a + s - 1) / s).toNat) with h | h
  · rw [List.getElem?_range h, if_pos h]
    rfl
  · rw [if_neg (Nat.not_lt.mpr h)]
    rw [List.getElem?_eq_none (by simpa using h)]
    rfl

lemma bins_edges_getElem (xs : List ℚ) (step : ℤ) (k : ℕ) :
    (bins_edges xs step)[k]? = if k < edge_count xs step
      then some (min_v xs + step * (k : ℤ)) else none := by
  rw [bins_edges, pyRange_getElem]
  rfl

lemma bins_edges_length (xs : List ℚ) (step : ℤ) :
    (bins_edges xs step).length = edge_count xs step := by
  simp [bins_edges, pyRange, edge_count]

lemma max_v_gt (xs : List ℚ) (step : ℤ) (hs : 1 ≤ step) :
    min_v xs + 1 ≤ max_v xs step := by
  rw [max_v]
  split_ifs with h <;> omega

lemma edge_count_ge2 (xs : List ℚ) (step : ℤ) (hs : 1 ≤ step) :
    2 ≤ edge_count xs step := by
  have h1 := max_v_gt xs step hs
  have h2 : (2 : ℤ) ≤ (max_v xs step + step - min_v xs + step - 1) / step := by
    rw [Int.le_ediv_iff_mul_le (by omega)]
    omega
  rw [edge_count]
  omega

lemma last_edge_bounds (xs : List ℚ) (step : ℤ) (hs : 1 ≤ step) :
    max_v xs step ≤ last_edge xs step ∧ last_edge xs step < max_v xs step + step := by
  have h1 := max_v_gt xs step hs
  have hq2 : (2 : ℤ) ≤ (max_v xs step + step - min_v xs + step - 1) / step := by
    rw [Int.le_ediv_iff_mul_le (by omega)]
    omega
  set D := max_v xs step + step - min_v xs + step - 1 with hD
  have hdiv := Int.ediv_add_emod D step
  have hr0 : 0 ≤ D % step := Int.emod_nonneg D (by omega)
  have hr1 : D % step < step := Int.emod_lt_of_pos D (by omega)
  have hcast : ((edge_count xs step : ℤ)) = D / step := by
    rw [edge_count, ← hD]
    exact Int.toNat_of_nonneg (by omega)
  rw [last_edge, hcast]
  have hmul : step * (D / step - 1) = step * (D / step) - step := by ring
  rw [hmul]
  constructor <;> linarith

lemma bins_edges_head (xs : List ℚ) (step : ℤ) (hs : 1 ≤ step) :
    (bins_edges xs step)[0]? = some (min_v xs) := by
  rw [bins_edges_getElem,
    if_pos (by have := edge_count_ge2 xs step hs; omega)]
  norm_num

lemma bins_edges_last (xs : List ℚ) (step : ℤ) (hs : 1 ≤ step) :
    (bins_edges xs step)[(bins_edges xs step).length - 1]? = some (last_edge xs step) := by
  have h2 := edge_count_ge2 xs step hs
  rw [bins_edges_length, bins_edges_getElem, if_pos (by omega), last_edge]
  congr 2
  push_cast [Nat.cast_sub (by omega : 1 ≤ edge_count xs step)]
  ring

lemma mem_of_getElem_some (l : List ℤ) (n : ℕ) (v : ℤ) (h : l[n]? = some v) :
    v ∈ l := by
  obtain ⟨hlt, rfl⟩ := List.getElem?_eq_some.mp h
  exact List.getElem_mem hlt

lemma cutGo_eq_some (x : ℚ) :
    ∀ (rest : List ℤ) (i j : ℕ), cutGo x rest i = some j →
      i ≤ j ∧ j - i < rest.length
      ∧ (∃ hi, rest[j - i]? = some hi ∧ x ≤ (hi : ℚ))
      ∧ ∀ k w, k < j - i → rest[k]? = some w → (w : ℚ) < x := by
  intro rest
  induction rest with
  | nil => intro i j h; simp [cutGo] at h
  | cons e t ih =>
    intro i j h
    simp only [cutGo] at h
    by_cases hx : x ≤ (e : ℚ)
    · rw [if_pos hx] at h
      injection h with h
      subst h
      refine ⟨le_refl _, by simp, ⟨e, by simp, hx⟩, ?_⟩
      intro k w hk _
      exact absurd hk (by omega)
    · rw [if_neg hx] at h
      obtain ⟨h1, h2, ⟨hi, h3, h4⟩, h5⟩ := ih (i + 1) j h
      have hd : j - i = (j - (i + 1)) + 1 := by omega
      refine ⟨by omega, ?_, ?_, ?_⟩
      · simp only [List.length_cons]
        omega
      · exact ⟨hi, by rw [hd, List.getElem?_cons_succ]; exact h3, h4⟩
      · intro k w hk hw
        rcases k with _ | k'
        · rw [List.getElem?_cons_zero] at hw
          injection hw with hw
          subst hw
          exact lt_of_not_le hx
        · rw [List.getElem?_cons_succ] at hw
          exact h5 k' w (by omega) hw

lemma cutGo_isSome_of_le (x : ℚ) :
    ∀ (rest : List ℤ) (i : ℕ) (e : ℤ), e ∈ rest → x ≤ (e : ℚ) →
      (cutGo x rest i).isSome = true := by
  intro rest
  induction rest with
  | nil => intro i e he _; simp at he
  | cons a t ih =>
    intro i e he hx
    simp only [cutGo]
    by_cases hxa : x ≤ (a : ℚ)
    · rw [if_pos hxa]
      rfl
    · rw [if_neg hxa]
      rcases List.mem_cons.mp he with rfl | he'
      · exact absurd hx hxa
      · exact ih (i + 1) e he' hx

lemma cutIndex_some_binMem (edges : List ℤ) (x : ℚ) (i : ℕ)
    (h : cutIndex edges x = some i) : binMem edges i x := by
  cases edges with
  | nil => simp [cutIndex] at h
  | cons e0 rest =>
    simp only [cutIndex] at h
    by_cases hx0 : x < (e0 : ℚ)
    · rw [if_pos hx0] at h
      exact Option.noConfusion h
    · rw [if_neg hx0] at h
      obtain ⟨-, h2, ⟨hi, h3, h4⟩, h5⟩ := cutGo_eq_some x rest 0 i h
      rw [Nat.sub_zero] at h2 h3
      rcases i with _ | j
      · exact ⟨e0, hi, List.getElem?_cons_zero,
          by rw [List.getElem?_cons_succ]; exact h3,
          Or.inr ⟨rfl, le_of_not_lt hx0⟩, h4⟩
      · cases hw : rest[j]? with
        | none =>
          rw [List.getElem?_eq_none_iff] at hw
          omega
        | some w =>
          refine ⟨w, hi, ?_, ?_, ?_, h4⟩
          · rw [List.getElem?_cons_succ]
            exact hw
          · rw [List.getElem?_cons_succ]
            exact h3
          · exact Or.inl (h5 j w (by omega) hw)

lemma cutIndex_isSome_cover (edges : List ℤ) (x : ℚ) (e0 el : ℤ)
    (h2 : 2 ≤ edges.length) (h0 : edges[0]? = some e0)
    (hl : edges[edges.length - 1]? = some el)
    (hx0 : (e0 : ℚ) ≤ x) (hxl : x ≤ (el : ℚ)) :
    (cutIndex edges x).isSome = true := by
  cases edges with
  | nil => simp at h2
  | cons a rest =>
    rw [List.getElem?_cons_zero] at h0
    injection h0 with h0
    subst h0
    simp only [cutIndex]
    rw [if_neg (not_lt.mpr hx0)]
    have hrest : 1 ≤ rest.length := by
      simp only [List.length_cons] at h2
      omega
    have hl' : rest[rest.length - 1]? = some el := by
      have hidx : (a :: rest).length - 1 = (rest.length - 1) + 1 := by
        simp only [List.length_cons]
        omega
      rw [hidx, List.getElem?_cons_succ] at hl
      exact hl
    exact cutGo_isSome_of_le x rest 0 el (mem_of_getElem_some _ _ _ hl') hxl

lemma binMem_not_lt (xs : List ℚ) (step : ℤ) (hs : 1 ≤ step) (x : ℚ) (i j : ℕ)
    (hij : i < j) (hi : binMem (bins_edges xs step) i x)
    (hj : binMem (bins_edges xs step) j x) : False := by
  obtain ⟨loi, hii, h1, h2, h3, h4⟩ := hi
  obtain ⟨loj, hjj, h5, h6, h7, h8⟩ := hj
  rw [bins_edges_getElem] at h2 h5
  split_ifs at h2 h5 with ha hb
  injection h2 with h2
  injection h5 with h5
  have hlj : (loj : ℚ) < x := by
    rcases h7 with h7 | ⟨rfl, -⟩
    · exact h7
    · omega
  have hmono : min_v xs + step * ((i : ℤ) + 1) ≤ min_v xs + step * (j : ℤ) := by
    have hle : ((i : ℤ) + 1) ≤ (j : ℤ) := by exact_mod_cast hij
    have := mul_le_mul_of_nonneg_left hle (by omega : (0 : ℤ) ≤ step)
    omega
  have hiq : (hii : ℚ) = ((min_v xs + step * ((i : ℤ) + 1) : ℤ) : ℚ) := by
    rw [← h2]
    push_cast
    ring_nf
  have hjq : (loj : ℚ) = ((min_v xs + step * (j : ℤ) : ℤ) : ℚ) := by
    rw [← h5]
  have hmq : ((min_v xs + step * ((i : ℤ) + 1) : ℤ) : ℚ)
      ≤ ((min_v xs + step * (j : ℤ) : ℤ) : ℚ) := by exact_mod_cast hmono
  rw [hiq] at h4
  rw [hjq] at hlj
  linarith

lemma binMem_unique (xs : List ℚ) (step : ℤ) (hs : 1 ≤ step) (x : ℚ) (i j : ℕ)
    (hi : binMem (bins_edges xs step) i x) (hj : binMem (bins_edges xs step) j x) :
    i = j := by
  rcases Nat.lt_trichotomy i j with h | h | h
  · exact absurd (binMem_not_lt xs step hs x i j h hi hj) (not_false)
  · exact h
  · exact absurd (binMem_not_lt xs step hs x j i h hj hi) (not_false)

lemma foldl_max_init (l : List ℕ) : ∀ b : ℕ, b ≤ l.foldl max b := by
  induction l with
  | nil => intro b; simp
  | cons a t ih =>
    intro b
    simp only [List.foldl_cons]
    exact le_trans (le_max_left b a) (ih (max b a))

lemma foldl_max_le_of_mem (l : List ℕ) : ∀ (b a : ℕ), a ∈ l → a ≤ l.foldl max b := by
  induction l with
  | nil => intro b a ha; simp at ha
  | cons c t ih =>
    intro b a ha
    simp only [List.foldl_cons]
    rcases List.mem_cons.mp ha with rfl | ha'
    · exact le_trans (le_max_right b a) (foldl_max_init t (max b a))
    · exact ih _ a ha'

lemma foldl_min_mem : ∀ (t : List ℚ) (x : ℚ), t.foldl min x ∈ x :: t := by
  intro t
  induction t with
  | nil => intro x; simp
  | cons a t' ih =>
    intro x
    simp only [List.foldl_cons]
    have h := ih (min x a)
    rcases List.mem_cons.mp h with h' | h'
    · rw [h']
      rcases min_choice x a with hm | hm <;> rw [hm] <;> simp
    · exact List.mem_cons_of_mem _ (List.mem_cons_of_mem _ h')

lemma listMin_mem (xs : List ℚ) (hne : xs ≠ []) : listMin xs ∈ xs := by
  cases xs with
  | nil => exact absurd rfl hne
  | cons x t => simpa [listMin] using foldl_min_mem t x

lemma binMem_cutIndex (xs : List ℚ) (step : ℤ) (hs : 1 ≤ step) (x : ℚ) (i : ℕ)
    (hb : binMem (bins_edges xs step) i x) :
    cutIndex (bins_edges xs step) x = some i := by
  have hb' := hb
  obtain ⟨lo, hi, h1, h2, h3, h4⟩ := hb'
  rw [bins_edges_getElem] at h1 h2
  split_ifs at h1 h2 with hk1 hk2
  · injection h1 with h1
    injection h2 with h2
    have hx0 : (min_v xs : ℚ) ≤ x := by
      rcases h3 with h3 | ⟨hi0, h3⟩
      · have hml : min_v xs ≤ lo := by
          rw [← h1]
          have := mul_nonneg (by omega : (0 : ℤ) ≤ step) (Int.natCast_nonneg i)
          omega
        have hmq : (min_v xs : ℚ) ≤ (lo : ℚ) := by exact_mod_cast hml
        linarith
      · subst hi0
        have hlo : lo = min_v xs := by
          rw [← h1]
          push_cast
          ring
        rw [hlo] at h3
        exact h3
    have hxl : x ≤ ((last_edge xs step : ℤ) : ℚ) := by
      have hile : (i : ℤ) + 1 ≤ (edge_count xs step : ℤ) - 1 := by omega
      have hle2 : hi ≤ last_edge xs step := by
        rw [← h2, last_edge]
        have hm := mul_le_mul_of_nonneg_left hile (by omega : (0 : ℤ) ≤ step)
        push_cast
        push_cast at hm
        linarith
      have hq : (hi : ℚ) ≤ ((last_edge xs step : ℤ) : ℚ) := by exact_mod_cast hle2
      linarith
    have hsome := cutIndex_isSome_cover (bins_edges xs step) x (min_v xs)
      (last_edge xs step)
      (by rw [bins_edges_length]; exact edge_count_ge2 xs step hs)
      (bins_edges_head xs step hs) (bins_edges_last xs step hs) hx0 hxl
    obtain ⟨j, hj⟩ := Option.isSome_iff_exists.mp hsome
    have hbj := cutIndex_some_binMem _ _ _ hj
    rw [binMem_unique xs step hs x j i hbj hb] at hj
    exact hj

/-- C5 (amended): the bins of `analyze_best_range` are fixed-width and
contiguous (consecutive edges differ by the bin width); the last edge lies in
[upper, upper + width) for the (possibly forced) upper bound; the bins do not
overlap; `pd.cut` assigns x to bin i exactly when x lies in the RIGHT-closed
interval (e_i, e_(i+1)] — with the first bin also containing its left edge —
so the claimed left-inclusive cover of [lower, upper + width) is wrong; and
every value in [lower, last_edge] is assigned to exactly one bin. -/
theorem c5_interval_bins (xs : List ℚ) (step : ℤ) (hs : 1 ≤ step) :
    (∀ k lo hi, (bins_edges xs step)[k]? = some lo →
        (bins_edges xs step)[k + 1]? = some hi → hi = lo + step)
    ∧ (max_v xs step ≤ last_edge xs step ∧ last_edge xs step < max_v xs step + step)
    ∧ (∀ x i j, binMem (bins_edges xs step) i x →
        binMem (bins_edges xs step) j x → i = j)
    ∧ (∀ x i, cutIndex (bins_edges xs step) x = some i ↔ binMem (bins_edges xs step) i x)
    ∧ (∀ x : ℚ, (min_v xs : ℚ) ≤ x → x ≤ ((last_edge xs step : ℤ) : ℚ) →
        (cutIndex (bins_edges xs step) x).isSome = true) := by
  refine ⟨?_, last_edge_bounds xs step hs,
    fun x i j hi hj => binMem_unique xs step hs x i j hi hj,
    fun x i => ⟨cutIndex_some_binMem _ x i, binMem_cutIndex xs step hs x i⟩,
    fun x hx0 hxl => cutIndex_isSome_cover _ x (min_v xs) (last_edge xs step)
      (by rw [bins_edges_length]; exact edge_count_ge2 xs step hs)
      (bins_edges_head xs step hs) (bins_edges_last xs step hs) hx0 hxl⟩
  intro k lo hi h1 h2
  rw [bins_edges_getElem] at h1 h2
  split_ifs at h1 h2
  all_goals
    first
      | exact Option.noConfusion h1
      | exact Option.noConfusion h2
      | (injection h1 with h1
         injection h2 with h2
         rw [← h1, ← h2]
         push_cast
         ring)

/-- C5 witness: on the one-element column [1] with width 5, the value 1 lies
in [lower, last_edge] and is assigned to a bin. -/
theorem c5_interval_bins_holds :
    (cutIndex (bins_edges [(1 : ℚ)] 5) 1).isSome = true :=
  (c5_interval_bins [(1 : ℚ)] 5 (by decide)).2.2.2.2 1 (by decide) (by decide)

/-- C5 counterexample: on the column [0, 11] with width 5 the bounds are
lower = 0 and upper = int(quantile) = 10, so the claim says the bins cover
[0, 15) left-inclusively; but the edges stop at 10 and the record value 11 —
inside the claimed range — is assigned to NO bin, and the boundary value 5 is
assigned to bin 0 ((0,5] right-closed), not to a bin starting at 5. -/
theorem c5_value_11_unbinned :
    min_v [(0 : ℚ), 11] = 0
    ∧ pyInt (quantile95 [(0 : ℚ), 11]) = 10
    ∧ max_v [(0 : ℚ), 11] 5 = 10
    ∧ ((0 : ℚ) ≤ 11 ∧ (11 : ℚ) < 10 + 5)
    ∧ cutIndex (bins_edges [(0 : ℚ), 11] 5) 11 = none
    ∧ cutIndex (bins_edges [(0 : ℚ), 11] 5) 5 = some 0 := by
  refine ⟨by decide, by decide, by decide, ⟨by decide, by decide⟩, by decide, by decide⟩

/-- C10 (amended): on a non-empty column with a positive integer width the
analyzer never returns the (None, 0) branch — at least one bin always exists,
so `value_counts` on the categorical result is non-empty — and when the column
minimum is non-negative (so that int() truncation is the floor) the minimum
falls inside the first covered range and the returned count is at least 1;
with a negative fractional minimum the returned count can be 0. -/
theorem c10_nonempty_result (xs : List ℚ) (step : ℤ) (hne : xs ≠ []) (hs : 1 ≤ step) :
    analyze_best_range xs step ≠ none
    ∧ (0 ≤ listMin xs → 1 ≤ (analyze_best_range xs step).getD 0) := by
  have hlen : ¬(bins_edges xs step).length < 2 := by
    rw [bins_edges_length]
    have := edge_count_ge2 xs step hs
    omega
  constructor
  · rw [analyze_best_range, if_neg hne, if_neg hlen]
    simp
  · intro h0
    rw [analyze_best_range, if_neg hne, if_neg hlen]
    simp only [Option.getD_some]
    have hmn : (min_v xs : ℚ) ≤ listMin xs := by
      rw [min_v, pyInt, if_pos h0]
      exact Int.floor_le _
    have hlast : listMin xs ≤ ((last_edge xs step : ℤ) : ℚ) := by
      have h1 : listMin xs < (min_v xs : ℚ) + 1 := by
        rw [min_v, pyInt, if_pos h0]
        exact Int.lt_floor_add_one _
      have h2 : min_v xs + 1 ≤ last_edge xs step := by
        rw [last_edge]
        have hc := edge_count_ge2 xs step hs
        have h3 : (1 : ℤ) ≤ (edge_count xs step : ℤ) - 1 := by omega
        have h4 := mul_le_mul hs h3 (by omega) (by omega)
        linarith
      have h2q : ((min_v xs : ℤ) : ℚ) + 1 ≤ ((last_edge xs step : ℤ) : ℚ) := by
        exact_mod_cast h2
      linarith
    have hcov := cutIndex_isSome_cover (bins_edges xs step) (listMin xs) (min_v xs)
      (last_edge xs step)
      (by rw [bins_edges_length]; exact edge_count_ge2 xs step hs)
      (bins_edges_head xs step hs) (bins_edges_last xs step hs) hmn hlast
    obtain ⟨j, hj⟩ := Option.isSome_iff_exists.mp hcov
    obtain ⟨lo, hi, h1, h2, -, -⟩ := cutIndex_some_binMem _ _ _ hj
    rw [bins_edges_getElem] at h2
    have hjlt : j + 1 < edge_count xs step := by
      by_contra hcon
      rw [if_neg hcon] at h2
      exact Option.noConfusion h2
    have hcnt : 1 ≤ binCount (bins_edges xs step) xs j := by
      rw [binCount]
      have hpos : 0 < xs.countP (fun a => cutIndex (bins_edges xs step) a == some j) := by
        rw [List.countP_pos_iff]
        exact ⟨listMin xs, listMin_mem xs hne, by rw [hj]; simp⟩
      omega
    have hmem : binCount (bins_edges xs step) xs j ∈
        (List.range ((bins_edges xs step).length - 1)).map
          (binCount (bins_edges xs step) xs) :=
      List.mem_map_of_mem _
        (List.mem_range.mpr (by rw [bins_edges_length]; omega))
    exact le_trans hcnt (foldl_max_le_of_mem _ 0 _ hmem)

/-- C10 witness: on the one-element column [1] with width 5, the result is a
real interval with count 1. -/
theorem c10_nonempty_result_holds :
    1 ≤ (analyze_best_range [(1 : ℚ)] 5).getD 0 :=
  (c10_nonempty_result [(1 : ℚ)] 5 (by decide) (by decide)).2 (by decide)

/-- C10 counterexample: on the non-empty column [-5/2] with width 5 the lower
bound is int(-2.5) = -2 (truncation, above the minimum), the single bin [-2,3]
contains no record, and the analyzer returns an interval with count 0 — not a
count of at least 1. -/
theorem c10_count_zero :
    analyze_best_range [-(5 / 2 : ℚ)] 5 = some 0 := by
  decide
